import Mathlib

/-!
Shallow embedding of the analytics pipeline of `src/server/routes.ts`
(the Express proxy route plus the `Dashboard` component's derived data:
`filteredLogs`, `stats`, `chartData`), together with proofs of the spec's
claims about it.

Numbers (`final_rate`, `rounds`) are modelled as exact rationals; the
`created_at` ISO-8601 timestamp is modelled as the integer millisecond
value that `new Date(created_at).getTime()` yields for it.
-/

namespace HappyRobot

/-- Closed outcome enum of a log record, from the TS union type
"accepted" | "declined" | "no_agreement". -/
inductive Outcome where
  | accepted
  | declined
  | no_agreement
deriving DecidableEq, Repr

/-- The string form of an outcome, as it appears in the JSON payload. -/
def Outcome.str : Outcome → String
  | .accepted => "accepted"
  | .declined => "declined"
  | .no_agreement => "no_agreement"

/-- Closed sentiment enum, from the TS union type
"positive" | "neutral" | "negative". -/
inductive Sentiment where
  | positive
  | neutral
  | negative
deriving DecidableEq, Repr

/-- The string form of a sentiment, as it appears in the JSON payload. -/
def Sentiment.str : Sentiment → String
  | .positive => "positive"
  | .neutral => "neutral"
  | .negative => "negative"

/-- One negotiation-log record (interface `LogData` in the source).
`created_at` is the parsed timestamp in milliseconds since the Unix epoch. -/
structure LogData where
  id : String
  mc_number : String
  load_id : String
  final_rate : ℚ
  outcome : Outcome
  sentiment : Sentiment
  rounds : ℚ
  notes : String
  created_at : Int
deriving DecidableEq, Repr

/-! ### Search filter (`filteredLogs`) -/

/-- JS `hay.includes(needle)`: the needle occurs as a contiguous substring. -/
def strIncludes (hay needle : String) : Bool :=
  decide (needle.toList <:+: hay.toList)

/-- The disjunction of the four `toLowerCase().includes(...)` tests in the
`filteredLogs` memo. -/
def matchesSearch (term : String) (log : LogData) : Bool :=
  strIncludes log.mc_number.toLower term.toLower ||
  strIncludes log.load_id.toLower term.toLower ||
  strIncludes log.outcome.str.toLower term.toLower ||
  strIncludes log.sentiment.str.toLower term.toLower

/-- The `filteredLogs` memo: an empty search term (falsy in JS) returns the
logs unchanged, otherwise the records matching the search are kept. -/
def filterBySearchTerm (logs : List LogData) (term : String) : List LogData :=
  if term = "" then logs else logs.filter (matchesSearch term)

/-! ### Summary stats (`stats`) -/

/-- Output of the `stats` memo. -/
structure SummaryStats where
  accepted : Nat
  declined : Nat
  avgFinalRate : ℚ
  avgRounds : ℚ
deriving DecidableEq, Repr

/-- The `stats` memo: zero everywhere on an empty list, otherwise filter
counts for the two outcomes and `reduce`-based means of rate and rounds. -/
def computeSummaryStats (logs : List LogData) : SummaryStats :=
  if logs.length = 0 then ⟨0, 0, 0, 0⟩
  else
    { accepted := (logs.filter (fun log => decide (log.outcome = Outcome.accepted))).length
      declined := (logs.filter (fun log => decide (log.outcome = Outcome.declined))).length
      avgFinalRate := logs.foldl (fun s log => s + log.final_rate) 0 / (logs.length : ℚ)
      avgRounds := logs.foldl (fun s log => s + log.rounds) 0 / (logs.length : ℚ) }

/-! ### Grouping by a key, as a JS object built by `reduce`

The three chart aggregations each build a plain JS object keyed by a
non-numeric string (an outcome, a sentiment, or a date), so
`Object.entries` / `Object.values` later iterate it in insertion order of
each key's first occurrence.  We model the object as an association list
updated in place. -/

/-- Update the entry of key `k` with `f`, or append `(k, i)` when `k` is
absent — one `acc[k] = ...` step on the JS accumulator object. -/
def updateAssoc {κ β : Type} [DecidableEq κ] (f : β → β) (i : β) (k : κ) :
    List (κ × β) → List (κ × β)
  | [] => [(k, i)]
  | (k', v) :: rest =>
    if k' = k then (k', f v) :: rest else (k', v) :: updateAssoc f i k rest

/-- The whole `reduce` over the records: each record updates the bucket of
its key (initialising the bucket from the record when the key is new). -/
def groupFold {α κ β : Type} [DecidableEq κ] (key : α → κ) (ini : α → β)
    (step : β → α → β) (l : List α) : List (κ × β) :=
  l.foldl (fun acc a => updateAssoc (fun v => step v a) (ini a) (key a) acc) []

/-- The distinct elements of a list in order of first occurrence — the key
iteration order of the JS accumulator object. -/
def firstKeys {κ : Type} [DecidableEq κ] (l : List κ) : List κ :=
  l.foldl (fun acc k => if k ∈ acc then acc else acc ++ [k]) []

/-- The bucket a key ends up with, described without the accumulator: the
records of that key, folded from the first one's initial bucket.  The
default `d` is only reached on an empty group, which no present key has. -/
def buildGroup {α β : Type} (ini : α → β) (step : β → α → β) (d : β) :
    List α → β
  | [] => d
  | a :: rest => rest.foldl step (ini a)

/-- Accumulator-free description of `groupFold`: one bucket per distinct
key, in first-occurrence order, each holding the fold of its own records. -/
def groupFoldSpec {α κ β : Type} [DecidableEq κ] (key : α → κ) (ini : α → β)
    (step : β → α → β) (d : β) (l : List α) : List (κ × β) :=
  (firstKeys (l.map key)).map fun k =>
    (k, buildGroup ini step d (l.filter fun a => decide (key a = k)))

/-! ### Chart data (`chartData`) -/

/-- One slice of the outcome or sentiment chart: the `{name, value, color}`
objects built from `Object.entries` of the count object. -/
structure DistEntry where
  name : String
  value : Nat
  color : String
deriving DecidableEq, Repr

/-- The module-level OUTCOME_COLORS lookup table. -/
def OUTCOME_COLORS : Outcome → String
  | .accepted => "#10b981"
  | .declined => "#ef4444"
  | .no_agreement => "#f59e0b"

/-- The module-level SENTIMENT_COLORS lookup table. -/
def SENTIMENT_COLORS : Sentiment → String
  | .positive => "#10b981"
  | .neutral => "#6b7280"
  | .negative => "#ef4444"

/-- The `outcomeCounts` reduce: a count object keyed by outcome,
`acc[log.outcome] = (acc[log.outcome] || 0) + 1`. -/
def outcomeCounts (logs : List LogData) : List (Outcome × Nat) :=
  groupFold (fun log => log.outcome) (fun _ => 1) (fun n _ => n + 1) logs

/-- `outcomeData`: `Object.entries(outcomeCounts).map(...)`.  JS
`replace('_', ' ')` swaps only the first underscore; every outcome string
has at most one, so `String.replace` (all occurrences) agrees on them. -/
def computeOutcomeDistribution (logs : List LogData) : List DistEntry :=
  (outcomeCounts logs).map fun e =>
    { name := (Outcome.str e.1).replace "_" " "
      value := e.2
      color := OUTCOME_COLORS e.1 }

/-- The `sentimentCounts` reduce, same shape as `outcomeCounts`. -/
def sentimentCounts (logs : List LogData) : List (Sentiment × Nat) :=
  groupFold (fun log => log.sentiment) (fun _ => 1) (fun n _ => n + 1) logs

/-- `sentimentData`: `Object.entries(sentimentCounts).map(...)`; sentiment
strings hold no underscore, so no label rewriting happens. -/
def computeSentimentDistribution (logs : List LogData) : List DistEntry :=
  (sentimentCounts logs).map fun e =>
    { name := Sentiment.str e.1
      value := e.2
      color := SENTIMENT_COLORS e.1 }

/-- The UTC calendar-date bucket of a millisecond timestamp, as the day
number since the epoch: `new Date(t).toISOString().split('T')[0]` renders
exactly this day as YYYY-MM-DD (the two are in order-preserving bijection),
and re-parsing that string with `new Date(...).getTime()` gives back
`dateKey t * 86400000`, so comparing those timestamps compares day numbers. -/
def dateKey (t : Int) : Int :=
  Int.fdiv t 86400000

/-- The `dailyRates` reduce: buckets of `final_rate` values keyed by the
UTC date of `created_at`; a new key starts an empty bucket and the record's
rate is pushed, so its bucket holds exactly that one rate. -/
def dailyRates (logs : List LogData) : List (Int × List ℚ) :=
  groupFold (fun log => dateKey log.created_at)
    (fun log => [log.final_rate])
    (fun rs log => rs ++ [log.final_rate]) logs

/-- One point of the rate-trend line chart. -/
structure TrendEntry where
  date : Int
  avgRate : ℚ
deriving DecidableEq, Repr

/-- `rates.reduce((sum, rate) => sum + rate, 0) / rates.length`. -/
def ratesAvg (rs : List ℚ) : ℚ :=
  rs.foldl (fun s r => s + r) 0 / (rs.length : ℚ)

/-- The sort comparator `(a, b) => new Date(a.date).getTime() - new
Date(b.date).getTime()` orders entries by their date bucket. -/
def dateLe (a b : TrendEntry) : Prop :=
  a.date ≤ b.date

instance : DecidableRel dateLe :=
  fun a b => Int.decLe a.date b.date

instance : IsTotal TrendEntry dateLe :=
  ⟨fun a b => Int.le_total a.date b.date⟩

instance : IsTrans TrendEntry dateLe :=
  ⟨fun _ _ _ h h' => le_trans h h'⟩

/-- JS `arr.slice(-7)`: the last seven elements (all of them when fewer). -/
def sliceLast7 (l : List TrendEntry) : List TrendEntry :=
  l.drop (l.length - 7)

/-- `trendData`: map the buckets to `{date, avgRate}`, sort ascending by
date, `slice(-7)`.  The dates are pairwise distinct (object keys), so the
sorted arrangement is unique and any correct sort computes it. -/
def computeDailyRateTrend (logs : List LogData) : List TrendEntry :=
  sliceLast7 (List.insertionSort dateLe
    ((dailyRates logs).map fun e => { date := e.1, avgRate := ratesAvg e.2 }))

/-- Output of the `chartData` memo. -/
structure ChartData where
  outcomeData : List DistEntry
  sentimentData : List DistEntry
  trendData : List TrendEntry
deriving DecidableEq, Repr

/-- The `chartData` memo: three empty tables on an empty list, otherwise
the three aggregations. -/
def computeChartData (logs : List LogData) : ChartData :=
  if logs.length = 0 then ⟨[], [], []⟩
  else
    { outcomeData := computeOutcomeDistribution logs
      sentimentData := computeSentimentDistribution logs
      trendData := computeDailyRateTrend logs }

/-! ### The proxy route (`registerRoutes`, GET /api/logs) -/

/-- A JSON value, the shape of bodies the route reads and writes. -/
inductive JsonValue where
  | null
  | bool (b : Bool)
  | num (q : ℚ)
  | str (s : String)
  | arr (items : List JsonValue)
  | obj (fields : List (String × JsonValue))

/-- Outcome of the upstream `fetch` as the handler observes it:
either the request itself threw, or a response arrived carrying a status,
a status text and a body whose JSON decoding may fail. -/
inductive UpstreamResult where
  | fetchFailed
  | response (status : Nat) (statusText : String) (body : Except Unit JsonValue)

/-- What the handler sends back: an HTTP status and a JSON body. -/
structure ProxyResponse where
  status : Nat
  body : JsonValue

/-- JS `response.ok`: the status lies in the 2xx range. -/
def responseOk (status : Nat) : Bool :=
  decide (200 ≤ status ∧ status ≤ 299)

/-- The body built in the `!response.ok` branch of the route. -/
def apiErrorBody (status : Nat) (statusText : String) : JsonValue :=
  .obj [("message", .str ("External API error: " ++ toString status ++ " " ++ statusText))]

/-- The body sent from the route's catch block. -/
def genericErrorBody : JsonValue :=
  .obj [("message", .str "Failed to fetch data from external API")]

/-- The GET /api/logs handler of `registerRoutes`: a thrown fetch gives a 500
with a generic message; a non-2xx upstream status is relayed with a
constructed error body; on a 2xx status the decoded body is sent back with
the Express default status 200, and a failed decode falls into the catch
block. -/
def handleLogsRequest (u : UpstreamResult) : ProxyResponse :=
  match u with
  | .fetchFailed => ⟨500, genericErrorBody⟩
  | .response status statusText body =>
    if responseOk status = false then ⟨status, apiErrorBody status statusText⟩
    else
      match body with
      | .error _ => ⟨500, genericErrorBody⟩
      | .ok data => ⟨200, data⟩

/-! ### Spec-side restatements and concrete inputs -/

/-- The outcome distribution as the spec words it: one entry per distinct
outcome present, in first-occurrence order, counting the matching records
and attaching the static label and color of the outcome. -/
def outcomeDistributionSpec (logs : List LogData) : List DistEntry :=
  (firstKeys (logs.map fun log => log.outcome)).map fun o =>
    { name := (Outcome.str o).replace "_" " "
      value := logs.countP fun log => decide (log.outcome = o)
      color := OUTCOME_COLORS o }

/-- The daily rate trend as the spec words it: one entry per distinct UTC
date present, whose avgRate is the arithmetic mean of final_rate over that
date's records, sorted ascending by date and truncated to the last 7. -/
def dailyRateTrendSpec (logs : List LogData) : List TrendEntry :=
  sliceLast7 (List.insertionSort dateLe
    ((firstKeys (logs.map fun log => dateKey log.created_at)).map fun day =>
      { date := day
        avgRate :=
          ((logs.filter fun log => decide (dateKey log.created_at = day)).map
              fun log => log.final_rate).sum /
            (((logs.filter fun log => decide (dateKey log.created_at = day)).map
              fun log => log.final_rate).length : ℚ) }))

/-- Scenario A of the spec: outcomes accepted, accepted, declined with
final rates 100, 200, 300. -/
def scenarioA : List LogData :=
  [ { id := "1", mc_number := "MC100", load_id := "L1", final_rate := 100,
      outcome := .accepted, sentiment := .positive, rounds := 1, notes := "",
      created_at := 0 },
    { id := "2", mc_number := "MC200", load_id := "L2", final_rate := 200,
      outcome := .accepted, sentiment := .neutral, rounds := 2, notes := "",
      created_at := 0 },
    { id := "3", mc_number := "MC300", load_id := "L3", final_rate := 300,
      outcome := .declined, sentiment := .negative, rounds := 3, notes := "",
      created_at := 0 } ]

/-- A concrete record used to instantiate universally quantified results. -/
def demoLog1 : LogData :=
  { id := "d1", mc_number := "MC900", load_id := "L9", final_rate := 50,
    outcome := .no_agreement, sentiment := .neutral, rounds := 4, notes := "",
    created_at := 86400000 }

/-- A second concrete record, distinct from the first. -/
def demoLog2 : LogData :=
  { id := "d2", mc_number := "MC901", load_id := "L10", final_rate := 75,
    outcome := .accepted, sentiment := .positive, rounds := 2, notes := "",
    created_at := 172800000 }

/-! ### Lemmas on first-occurrence keys -/

/-- Membership through the fold underlying `firstKeys`. -/
theorem mem_firstKeys_go {κ : Type} [DecidableEq κ] (l : List κ) :
    ∀ (acc : List κ) (x : κ),
      (x ∈ l.foldl (fun acc k => if k ∈ acc then acc else acc ++ [k]) acc) ↔
        x ∈ acc ∨ x ∈ l := by
  induction l with
  | nil => intro acc x; simp
  | cons k l ih =>
    intro acc x
    rw [List.foldl_cons, ih]
    by_cases h : k ∈ acc
    · simp only [if_pos h, List.mem_cons]
      constructor
      · rintro (hx | hx)
        · exact Or.inl hx
        · exact Or.inr (Or.inr hx)
      · rintro (hx | rfl | hx)
        · exact Or.inl hx
        · exact Or.inl h
        · exact Or.inr hx
    · simp only [if_neg h, List.mem_append, List.mem_singleton, List.mem_cons]
      tauto

/-- A key appears among the first-occurrence keys iff it appears at all. -/
theorem mem_firstKeys {κ : Type} [DecidableEq κ] (l : List κ) (x : κ) :
    x ∈ firstKeys l ↔ x ∈ l := by
  have h := mem_firstKeys_go l [] x
  simpa [firstKeys] using h

/-- No-duplicates through the fold underlying `firstKeys`. -/
theorem nodup_firstKeys_go {κ : Type} [DecidableEq κ] (l : List κ) :
    ∀ acc : List κ, acc.Nodup →
      (l.foldl (fun acc k => if k ∈ acc then acc else acc ++ [k]) acc).Nodup := by
  induction l with
  | nil => intro acc h; simpa using h
  | cons k l ih =>
    intro acc h
    rw [List.foldl_cons]
    apply ih
    by_cases hk : k ∈ acc
    · simpa [if_pos hk] using h
    · rw [if_neg hk]
      simp [List.nodup_append, h, List.disjoint_singleton, hk]

/-- The first-occurrence keys are pairwise distinct. -/
theorem nodup_firstKeys {κ : Type} [DecidableEq κ] (l : List κ) :
    (firstKeys l).Nodup :=
  nodup_firstKeys_go l [] List.nodup_nil

/-- Appending one element either leaves the first-occurrence keys unchanged
or appends the new key at the end. -/
theorem firstKeys_append {κ : Type} [DecidableEq κ] (l : List κ) (x : κ) :
    firstKeys (l ++ [x]) =
      if x ∈ firstKeys l then firstKeys l else firstKeys l ++ [x] := by
  simp [firstKeys, List.foldl_append]

/-! ### Lemmas on the association-list update -/

/-- Updating an absent key appends a fresh entry at the end. -/
theorem updateAssoc_map_not_mem {κ β : Type} [DecidableEq κ] (f : β → β) (i : β)
    (k : κ) (g : κ → β) : ∀ K : List κ, k ∉ K →
      updateAssoc f i k (K.map fun x => (x, g x)) =
        (K.map fun x => (x, g x)) ++ [(k, i)] := by
  intro K
  induction K with
  | nil => intro _; rfl
  | cons k₀ K ih =>
    intro hk
    have hne : k₀ ≠ k := fun h => hk (h ▸ List.mem_cons_self k₀ K)
    simp only [List.map_cons, updateAssoc, if_neg hne, List.cons_append]
    rw [ih (fun h => hk (List.mem_cons_of_mem k₀ h))]

/-- Updating a present key rewrites exactly that entry. -/
theorem updateAssoc_map_mem {κ β : Type} [DecidableEq κ] (f : β → β) (i : β)
    (k : κ) (g : κ → β) : ∀ K : List κ, K.Nodup → k ∈ K →
      updateAssoc f i k (K.map fun x => (x, g x)) =
        K.map fun x => (x, if x = k then f (g x) else g x) := by
  intro K
  induction K with
  | nil => intro _ h; cases h
  | cons k₀ K ih =>
    intro hnd hk
    rw [List.nodup_cons] at hnd
    by_cases h₀ : k₀ = k
    · simp only [List.map_cons, updateAssoc]
      rw [if_pos h₀, if_pos h₀]
      congr 1
      apply List.map_congr_left
      intro x hx
      have hxk : ¬ x = k := fun h => hnd.1 (by rw [h₀, ← h]; exact hx)
      rw [if_neg hxk]
    · have hkK : k ∈ K := by
        rcases List.mem_cons.mp hk with h | h
        · exact absurd h.symm h₀
        · exact h
      simp only [List.map_cons, updateAssoc]
      rw [if_neg h₀, if_neg h₀, ih hnd.2 hkK]

/-! ### Lemmas on bucket contents -/

/-- Appending one record to a non-empty group folds one more step. -/
theorem buildGroup_append {α β : Type} (ini : α → β) (step : β → α → β) (d : β)
    (xs : List α) (a : α) (h : xs ≠ []) :
    buildGroup ini step d (xs ++ [a]) = step (buildGroup ini step d xs) a := by
  cases xs with
  | nil => exact absurd rfl h
  | cons x t => simp [buildGroup, List.foldl_append]

/-- One `reduce` step turns the accumulator-free description of the
processed prefix into that of the prefix with one more record. -/
theorem groupFoldSpec_snoc {α κ β : Type} [DecidableEq κ] (key : α → κ)
    (ini : α → β) (step : β → α → β) (d : β) (p : List α) (a : α) :
    updateAssoc (fun v => step v a) (ini a) (key a)
        (groupFoldSpec key ini step d p) =
      groupFoldSpec key ini step d (p ++ [a]) := by
  have hmap : (p ++ [a]).map key = p.map key ++ [key a] := by simp
  simp only [groupFoldSpec, hmap, firstKeys_append]
  by_cases hk : key a ∈ firstKeys (p.map key)
  · rw [if_pos hk,
      updateAssoc_map_mem (fun v => step v a) (ini a) (key a)
        (fun x => buildGroup ini step d (p.filter fun b => decide (key b = x)))
        (firstKeys (p.map key)) (nodup_firstKeys _) hk]
    apply List.map_congr_left
    intro x hx
    by_cases hxk : x = key a
    · have hfil : (p ++ [a]).filter (fun b => decide (key b = x)) =
          p.filter (fun b => decide (key b = x)) ++ [a] := by
        simp [← hxk]
      have hxp : x ∈ p.map key := by rw [hxk]; exact (mem_firstKeys _ _).mp hk
      have hne : p.filter (fun b => decide (key b = x)) ≠ [] := by
        obtain ⟨b, hb, hbx⟩ := List.mem_map.mp hxp
        intro hnil
        have hmem : b ∈ p.filter (fun b => decide (key b = x)) := by
          simp [List.mem_filter, hb, hbx]
        rw [hnil] at hmem
        cases hmem
      rw [if_pos hxk, hfil, buildGroup_append _ _ _ _ _ hne]
    · have hne2 : ¬ key a = x := fun h => hxk h.symm
      have hfil : (p ++ [a]).filter (fun b => decide (key b = x)) =
          p.filter (fun b => decide (key b = x)) := by
        simp [hne2]
      rw [if_neg hxk, hfil]
  · rw [if_neg hk,
      updateAssoc_map_not_mem (fun v => step v a) (ini a) (key a)
        (fun x => buildGroup ini step d (p.filter fun b => decide (key b = x)))
        (firstKeys (p.map key)) hk, List.map_append]
    congr 1
    · apply List.map_congr_left
      intro x hx
      have hne2 : ¬ key a = x := fun h => hk (by rw [h]; exact hx)
      have hfil : (p ++ [a]).filter (fun b => decide (key b = x)) =
          p.filter (fun b => decide (key b = x)) := by
        simp [hne2]
      rw [hfil]
    · simp only [List.map_cons, List.map_nil]
      have hnil : p.filter (fun b => decide (key b = key a)) = [] := by
        rw [List.filter_eq_nil_iff]
        intro b hb hkey
        exact hk ((mem_firstKeys _ _).mpr
          (List.mem_map.mpr ⟨b, hb, by simpa using hkey⟩))
      have hfil : (p ++ [a]).filter (fun b => decide (key b = key a)) = [a] := by
        simp [hnil]
      rw [hfil]
      rfl

/-- The `reduce`-built association list equals its accumulator-free
description: one bucket per distinct key in first-occurrence order, each
the fold of its own records. -/
theorem groupFold_eq_spec {α κ β : Type} [DecidableEq κ] (key : α → κ)
    (ini : α → β) (step : β → α → β) (d : β) (l : List α) :
    groupFold key ini step l = groupFoldSpec key ini step d l := by
  suffices h : ∀ l p : List α,
      List.foldl (fun acc a => updateAssoc (fun v => step v a) (ini a) (key a) acc)
        (groupFoldSpec key ini step d p) l = groupFoldSpec key ini step d (p ++ l) by
    have h0 := h l []
    have hnil : groupFoldSpec key ini step d [] = [] := rfl
    rw [hnil] at h0
    simpa [groupFold] using h0
  intro l
  induction l with
  | nil => intro p; simp
  | cons a l ih =>
    intro p
    rw [List.foldl_cons, groupFoldSpec_snoc, ih (p ++ [a]), List.append_assoc]
    rfl

/-! ### Fold arithmetic -/

/-- The counting fold adds the list length to its start value. -/
theorem foldl_count {α : Type} (t : List α) :
    ∀ n : Nat, t.foldl (fun n _ => n + 1) n = n + t.length := by
  induction t with
  | nil => intro n; simp
  | cons a t ih =>
    intro n
    rw [List.foldl_cons, ih, List.length_cons]
    omega

/-- A non-empty counting bucket holds the number of its records. -/
theorem buildGroup_count {α : Type} (d : Nat) (xs : List α) (h : xs ≠ []) :
    buildGroup (fun _ => 1) (fun n _ => n + 1) d xs = xs.length := by
  cases xs with
  | nil => exact absurd rfl h
  | cons x t =>
    simp only [buildGroup]
    rw [foldl_count, List.length_cons]
    omega

/-- The rate-pushing fold appends the mapped list to its start value. -/
theorem foldl_push_rates (t : List LogData) :
    ∀ acc : List ℚ, t.foldl (fun rs log => rs ++ [log.final_rate]) acc =
      acc ++ t.map fun log => log.final_rate := by
  induction t with
  | nil => intro acc; simp
  | cons a t ih =>
    intro acc
    rw [List.foldl_cons, ih]
    simp

/-- A non-empty rate bucket holds exactly its records' rates, in order. -/
theorem buildGroup_rates (d : List ℚ) (xs : List LogData) (h : xs ≠ []) :
    buildGroup (fun log => [log.final_rate]) (fun rs log => rs ++ [log.final_rate])
      d xs = xs.map fun log => log.final_rate := by
  cases xs with
  | nil => exact absurd rfl h
  | cons x t =>
    simp only [buildGroup]
    rw [foldl_push_rates]
    simp

/-- The JS `reduce((sum, rate) => sum + rate, q)` computes `q` plus the sum. -/
theorem foldl_add_rates (rs : List ℚ) :
    ∀ q : ℚ, rs.foldl (fun s r => s + r) q = q + rs.sum := by
  induction rs with
  | nil => intro q; simp
  | cons a t ih =>
    intro q
    rw [List.foldl_cons, ih, List.sum_cons, add_assoc]

/-- The rate-summing reduce over the records computes `q` plus the sum of
the mapped rates. -/
theorem foldl_add_final_rate (logs : List LogData) :
    ∀ q : ℚ, logs.foldl (fun s log => s + log.final_rate) q =
      q + ((logs.map fun log => log.final_rate).sum) := by
  induction logs with
  | nil => intro q; simp
  | cons a t ih =>
    intro q
    rw [List.foldl_cons, ih, List.map_cons, List.sum_cons, add_assoc]

/-- The rounds-summing reduce over the records computes `q` plus the sum of
the mapped rounds. -/
theorem foldl_add_rounds (logs : List LogData) :
    ∀ q : ℚ, logs.foldl (fun s log => s + log.rounds) q =
      q + ((logs.map fun log => log.rounds).sum) := by
  induction logs with
  | nil => intro q; simp
  | cons a t ih =>
    intro q
    rw [List.foldl_cons, ih, List.map_cons, List.sum_cons, add_assoc]

/-- One association-list count update raises the total of counts by one. -/
theorem sum_updateAssoc_succ {κ : Type} [DecidableEq κ] (k : κ) :
    ∀ acc : List (κ × Nat),
      ((updateAssoc (fun v => v + 1) 1 k acc).map Prod.snd).sum =
        (acc.map Prod.snd).sum + 1 := by
  intro acc
  induction acc with
  | nil => simp [updateAssoc]
  | cons e rest ih =>
    obtain ⟨k', v⟩ := e
    simp only [updateAssoc]
    by_cases h : k' = k
    · rw [if_pos h]
      simp
      omega
    · rw [if_neg h]
      simp only [List.map_cons, List.sum_cons]
      rw [ih]
      omega

/-- Each record raises the total of counts by one, so the totals of a
count grouping add up to the number of records. -/
theorem sum_groupFold_count {α κ : Type} [DecidableEq κ] (key : α → κ)
    (l : List α) :
    ((groupFold key (fun _ => 1) (fun n _ => n + 1) l).map Prod.snd).sum =
      l.length := by
  suffices h : ∀ (l : List α) (acc : List (κ × Nat)),
      ((l.foldl (fun acc a => updateAssoc (fun v => v + 1) 1 (key a) acc)
          acc).map Prod.snd).sum = (acc.map Prod.snd).sum + l.length by
    have h0 := h l []
    simpa [groupFold] using h0
  intro l
  induction l with
  | nil => intro acc; simp
  | cons a l ih =>
    intro acc
    rw [List.foldl_cons, ih, sum_updateAssoc_succ, List.length_cons]
    omega

/-! ### Characterizations of the chart groupings -/

/-- The outcome-count object holds one entry per distinct outcome, in
first-occurrence order, counting the matching records. -/
theorem outcomeCounts_eq (logs : List LogData) :
    outcomeCounts logs =
      (firstKeys (logs.map fun log => log.outcome)).map fun o =>
        (o, logs.countP fun log => decide (log.outcome = o)) := by
  refine (groupFold_eq_spec (fun log : LogData => log.outcome) (fun _ => 1)
    (fun n _ => n + 1) 0 logs).trans ?_
  simp only [groupFoldSpec]
  apply List.map_congr_left
  intro o ho
  have hop : o ∈ logs.map fun log => log.outcome := (mem_firstKeys _ _).mp ho
  have hne : logs.filter (fun log => decide (log.outcome = o)) ≠ [] := by
    obtain ⟨b, hb, hbo⟩ := List.mem_map.mp hop
    intro hnil
    have hmem : b ∈ logs.filter (fun log => decide (log.outcome = o)) := by
      simp [List.mem_filter, hb, hbo]
    rw [hnil] at hmem
    cases hmem
  rw [buildGroup_count _ _ hne, List.countP_eq_length_filter]

/-- The daily-rate object holds one bucket per distinct UTC date, in
first-occurrence order, listing that date's rates in input order. -/
theorem dailyRates_eq (logs : List LogData) :
    dailyRates logs =
      (firstKeys (logs.map fun log => dateKey log.created_at)).map fun day =>
        (day, (logs.filter fun log => decide (dateKey log.created_at = day)).map
          fun log => log.final_rate) := by
  refine (groupFold_eq_spec (fun log : LogData => dateKey log.created_at)
    (fun log => [log.final_rate]) (fun rs log => rs ++ [log.final_rate])
    [] logs).trans ?_
  simp only [groupFoldSpec]
  apply List.map_congr_left
  intro day hday
  have hop : day ∈ logs.map fun log => dateKey log.created_at :=
    (mem_firstKeys _ _).mp hday
  have hne : logs.filter (fun log => decide (dateKey log.created_at = day)) ≠ [] := by
    obtain ⟨b, hb, hbd⟩ := List.mem_map.mp hop
    intro hnil
    have hmem : b ∈ logs.filter (fun log => decide (dateKey log.created_at = day)) := by
      simp [List.mem_filter, hb, hbd]
    rw [hnil] at hmem
    cases hmem
  rw [buildGroup_rates _ _ hne]

/-- The unsorted trend entries, written without the accumulator: one entry
per distinct date, carrying the mean of that date's rates. -/
theorem trendEntries_eq (logs : List LogData) :
    (dailyRates logs).map (fun e => ({ date := e.1, avgRate := ratesAvg e.2 } : TrendEntry)) =
      (firstKeys (logs.map fun log => dateKey log.created_at)).map fun day =>
        { date := day
          avgRate :=
            ((logs.filter fun log => decide (dateKey log.created_at = day)).map
                fun log => log.final_rate).sum /
              (((logs.filter fun log => decide (dateKey log.created_at = day)).map
                fun log => log.final_rate).length : ℚ) } := by
  rw [dailyRates_eq, List.map_map]
  apply List.map_congr_left
  intro day hday
  simp only [Function.comp_apply]
  congr 1
  simp only [ratesAvg]
  rw [foldl_add_rates, zero_add]

/-- The trend is its spec-side description. -/
theorem computeDailyRateTrend_eq (logs : List LogData) :
    computeDailyRateTrend logs = dailyRateTrendSpec logs := by
  simp only [computeDailyRateTrend, dailyRateTrendSpec]
  rw [trendEntries_eq]

/-! ### Structure of the trend output -/

/-- The slice keeps at most seven entries. -/
theorem sliceLast7_length (l : List TrendEntry) : (sliceLast7 l).length ≤ 7 := by
  simp only [sliceLast7, List.length_drop]
  omega

/-- The trend is at most seven entries long. -/
theorem computeDailyRateTrend_length (logs : List LogData) :
    (computeDailyRateTrend logs).length ≤ 7 :=
  sliceLast7_length _

/-- The trend entries stay sorted by date after the slice. -/
theorem computeDailyRateTrend_pairwise_le (logs : List LogData) :
    ((computeDailyRateTrend logs).map fun e => e.date).Pairwise (· ≤ ·) := by
  have hs : List.Sorted dateLe (List.insertionSort dateLe
      ((dailyRates logs).map fun e => { date := e.1, avgRate := ratesAvg e.2 })) :=
    List.sorted_insertionSort dateLe _
  have hd : (computeDailyRateTrend logs).Pairwise dateLe := by
    simp only [computeDailyRateTrend, sliceLast7]
    exact List.Pairwise.sublist (List.drop_sublist _ _) hs
  rw [List.pairwise_map]
  exact hd

/-- The dates of the trend output are pairwise distinct: the unsorted
entries carry the distinct bucket keys, and sorting then slicing only
permutes and then drops entries. -/
theorem computeDailyRateTrend_dates_nodup (logs : List LogData) :
    ((computeDailyRateTrend logs).map fun e => e.date).Nodup := by
  have hkeys : (((dailyRates logs).map
      (fun e => ({ date := e.1, avgRate := ratesAvg e.2 } : TrendEntry))).map
        fun e => e.date) =
      firstKeys (logs.map fun log => dateKey log.created_at) := by
    rw [dailyRates_eq, List.map_map, List.map_map]
    exact List.map_id'' (fun k => rfl) _
  have hperm : List.Perm
      ((List.insertionSort dateLe
        ((dailyRates logs).map fun e => { date := e.1, avgRate := ratesAvg e.2 })).map
          fun e => e.date)
      (((dailyRates logs).map
        (fun e => ({ date := e.1, avgRate := ratesAvg e.2 } : TrendEntry))).map
          fun e => e.date) :=
    List.Perm.map _ (List.perm_insertionSort dateLe _)
  have hnd : ((List.insertionSort dateLe
      ((dailyRates logs).map fun e => { date := e.1, avgRate := ratesAvg e.2 })).map
        fun e => e.date).Nodup := by
    rw [List.Perm.nodup_iff hperm, hkeys]
    exact nodup_firstKeys _
  simp only [computeDailyRateTrend, sliceLast7, List.map_drop]
  exact List.Nodup.sublist (List.drop_sublist _ _) hnd

/-- Two Boolean predicates that never hold together count at most the
length of the list between them. -/
theorem countP_disjoint_le {α : Type} (p q : α → Bool)
    (hpq : ∀ a, ¬ (p a = true ∧ q a = true)) (l : List α) :
    l.countP p + l.countP q ≤ l.length := by
  induction l with
  | nil => simp
  | cons a t ih =>
    rw [List.countP_cons, List.countP_cons, List.length_cons]
    by_cases hp : p a = true
    · have hq : ¬ q a = true := fun hq => hpq a ⟨hp, hq⟩
      simp [hp, hq]
      omega
    · by_cases hq : q a = true
      · simp [hp, hq]
        omega
      · simp [hp, hq]
        omega

/-! ### The claims -/

/-- C1: `computeDailyRateTrend` buckets the records by the UTC calendar
date of `created_at`, gives each distinct date one entry whose avgRate is
the arithmetic mean of that date's final rates, sorts ascending by date and
keeps the last 7 entries; hence the output has length at most 7 and its
dates are non-decreasing. -/
theorem claim_trend_shape (logs : List LogData) :
    (computeDailyRateTrend logs).length ≤ 7 ∧
    ((computeDailyRateTrend logs).map fun e => e.date).Pairwise (· ≤ ·) ∧
    computeDailyRateTrend logs = dailyRateTrendSpec logs :=
  ⟨computeDailyRateTrend_length logs, computeDailyRateTrend_pairwise_le logs,
    computeDailyRateTrend_eq logs⟩

/-- C2: on the empty search term the filter returns the records unchanged;
otherwise it is the order-preserving subsequence of exactly those records
in which the term occurs case-insensitively as a substring of mc_number,
load_id, outcome or sentiment. -/
theorem claim_filter_characterization (logs : List LogData) (term : String) :
    (term = "" → filterBySearchTerm logs term = logs) ∧
    List.Sublist (filterBySearchTerm logs term) logs ∧
    (term ≠ "" → ∀ log, log ∈ filterBySearchTerm logs term ↔
      log ∈ logs ∧
        (strIncludes log.mc_number.toLower term.toLower = true ∨
         strIncludes log.load_id.toLower term.toLower = true ∨
         strIncludes log.outcome.str.toLower term.toLower = true ∨
         strIncludes log.sentiment.str.toLower term.toLower = true)) := by
  refine ⟨fun ht => by simp [filterBySearchTerm, ht], ?_, ?_⟩
  · by_cases ht : term = ""
    · simp [filterBySearchTerm, ht]
    · simp only [filterBySearchTerm, if_neg ht]
      exact List.filter_sublist _
  · intro ht log
    simp only [filterBySearchTerm, if_neg ht, List.mem_filter, matchesSearch,
      Bool.or_eq_true]
    tauto

/-- C3: the outcome distribution has one entry per distinct outcome value
present in the input (and none for absent values), in first-occurrence
order, and its counts add up to the number of records. -/
theorem claim_outcome_distribution (logs : List LogData) :
    computeOutcomeDistribution logs = outcomeDistributionSpec logs ∧
    (firstKeys (logs.map fun log => log.outcome)).Nodup ∧
    (∀ o : Outcome, o ∈ firstKeys (logs.map fun log => log.outcome) ↔
      o ∈ logs.map fun log => log.outcome) ∧
    ((computeOutcomeDistribution logs).map fun e => e.value).sum = logs.length := by
  refine ⟨?_, nodup_firstKeys _, fun o => mem_firstKeys _ _, ?_⟩
  · simp only [computeOutcomeDistribution, outcomeDistributionSpec]
    rw [outcomeCounts_eq, List.map_map]
    rfl
  · simp only [computeOutcomeDistribution, List.map_map]
    exact sum_groupFold_count (fun log => log.outcome) logs

/-- C4: on a non-empty record sequence the stats hold the counts of
accepted and declined records and the arithmetic means of final_rate and
rounds over all records. -/
theorem claim_summary_stats (logs : List LogData) (h : logs ≠ []) :
    (computeSummaryStats logs).accepted =
        logs.countP (fun log => decide (log.outcome = Outcome.accepted)) ∧
    (computeSummaryStats logs).declined =
        logs.countP (fun log => decide (log.outcome = Outcome.declined)) ∧
    (computeSummaryStats logs).avgFinalRate =
        ((logs.map fun log => log.final_rate).sum) / (logs.length : ℚ) ∧
    (computeSummaryStats logs).avgRounds =
        ((logs.map fun log => log.rounds).sum) / (logs.length : ℚ) := by
  have hlen : ¬ logs.length = 0 := by
    cases logs with
    | nil => exact absurd rfl h
    | cons a t => simp
  simp only [computeSummaryStats, if_neg hlen]
  refine ⟨?_, ?_, ?_, ?_⟩
  · rw [List.countP_eq_length_filter]
  · rw [List.countP_eq_length_filter]
  · rw [foldl_add_final_rate, zero_add]
  · rw [foldl_add_rounds, zero_add]

/-- Witness for C4 at Scenario A of the spec: three records with outcomes
accepted, accepted, declined and rates 100, 200, 300. -/
theorem claim_summary_stats_witness :
    scenarioA ≠ [] ∧
      (computeSummaryStats scenarioA).accepted = 2 ∧
      (computeSummaryStats scenarioA).declined = 1 ∧
      (computeSummaryStats scenarioA).avgFinalRate = 200 := by
  have hne : scenarioA ≠ [] := by simp [scenarioA]
  obtain ⟨h1, h2, h3, h4⟩ := claim_summary_stats scenarioA hne
  refine ⟨hne, ?_, ?_, ?_⟩
  · rw [h1]; rfl
  · rw [h2]; rfl
  · rw [h3]; norm_num [scenarioA]

/-- C5 amended: the handler relays a non-2xx upstream status code but sends
a constructed message body instead of the upstream body; on a 2xx upstream
response with decodable JSON body it responds with status 200 and the
upstream body verbatim; a thrown fetch or a failed body decode in the 2xx
case gives a 500 with a generic message. -/
theorem claim_proxy_behaviour (status : Nat) (statusText : String)
    (data : JsonValue) :
    (responseOk status = true →
      handleLogsRequest (.response status statusText (.ok data)) = ⟨200, data⟩) ∧
    (responseOk status = false →
      handleLogsRequest (.response status statusText (.ok data)) =
        ⟨status, apiErrorBody status statusText⟩) ∧
    (responseOk status = true →
      handleLogsRequest (.response status statusText (.error ())) =
        ⟨500, genericErrorBody⟩) ∧
    (responseOk status = false →
      handleLogsRequest (.response status statusText (.error ())) =
        ⟨status, apiErrorBody status statusText⟩) ∧
    handleLogsRequest .fetchFailed = ⟨500, genericErrorBody⟩ := by
  refine ⟨?_, ?_, ?_, ?_, rfl⟩ <;> intro h <;> simp [handleLogsRequest, h]

/-- C5 as stated is false: a 404 upstream response with JSON body
`{"rows": 1}` is answered with status 404 but a constructed message body,
not the upstream body; and a 201 upstream success is answered with status
200, not 201. -/
theorem claim_proxy_verbatim_counterexample :
    (handleLogsRequest (.response 404 "Not Found"
        (.ok (.obj [("rows", .num 1)])))).status = 404 ∧
    (handleLogsRequest (.response 404 "Not Found"
        (.ok (.obj [("rows", .num 1)])))).body ≠ .obj [("rows", .num 1)] ∧
    (handleLogsRequest (.response 201 "Created"
        (.ok (.obj [("rows", .num 1)])))).status ≠ 201 := by
  refine ⟨rfl, ?_, ?_⟩
  · intro hbody
    simp [handleLogsRequest, responseOk, apiErrorBody] at hbody
  · intro hstat
    simp [handleLogsRequest, responseOk] at hstat

/-- C6: the summary stats are invariant under permutation of the records,
because only counts and sums enter them. -/
theorem claim_stats_perm_invariant (logs logs' : List LogData)
    (h : List.Perm logs logs') :
    computeSummaryStats logs = computeSummaryStats logs' := by
  have hlen := h.length_eq
  by_cases h0 : logs.length = 0
  · have h0' : logs'.length = 0 := by omega
    simp only [computeSummaryStats, if_pos h0, if_pos h0']
  · have h0' : ¬ logs'.length = 0 := by omega
    simp only [computeSummaryStats, if_neg h0, if_neg h0']
    congr 1
    · rw [← List.countP_eq_length_filter, ← List.countP_eq_length_filter,
        h.countP_eq]
    · rw [← List.countP_eq_length_filter, ← List.countP_eq_length_filter,
        h.countP_eq]
    · rw [foldl_add_final_rate, foldl_add_final_rate, zero_add, zero_add,
        (h.map fun log => log.final_rate).sum_eq, hlen]
    · rw [foldl_add_rounds, foldl_add_rounds, zero_add, zero_add,
        (h.map fun log => log.rounds).sum_eq, hlen]

/-- Witness for C6: swapping two concrete records leaves the stats as they
were. -/
theorem claim_stats_perm_invariant_witness :
    List.Perm [demoLog1, demoLog2] [demoLog2, demoLog1] ∧
      computeSummaryStats [demoLog1, demoLog2] =
        computeSummaryStats [demoLog2, demoLog1] :=
  ⟨List.Perm.swap demoLog2 demoLog1 [],
    claim_stats_perm_invariant _ _ (List.Perm.swap demoLog2 demoLog1 [])⟩

/-- C7: the empty sequence is not an error: the stats are all zero and the
three chart tables are empty, with every operation defined. -/
theorem claim_empty_dataset :
    computeSummaryStats [] = ⟨0, 0, 0, 0⟩ ∧
    computeChartData [] = ⟨[], [], []⟩ ∧
    computeOutcomeDistribution [] = [] ∧
    computeSentimentDistribution [] = [] ∧
    computeDailyRateTrend [] = [] :=
  ⟨rfl, rfl, rfl, rfl, rfl⟩

/-- C8: accepted plus declined counts never exceed the number of records. -/
theorem claim_counts_le_length (logs : List LogData) (h : logs ≠ []) :
    (computeSummaryStats logs).accepted + (computeSummaryStats logs).declined ≤
      logs.length := by
  have hlen : ¬ logs.length = 0 := by
    cases logs with
    | nil => exact absurd rfl h
    | cons a t => simp
  simp only [computeSummaryStats, if_neg hlen]
  rw [← List.countP_eq_length_filter, ← List.countP_eq_length_filter]
  apply countP_disjoint_le
  intro a hcon
  obtain ⟨h1, h2⟩ := hcon
  simp only [decide_eq_true_eq] at h1 h2
  rw [h1] at h2
  exact Outcome.noConfusion h2

/-- Witness for C8 at Scenario A. -/
theorem claim_counts_le_length_witness :
    scenarioA ≠ [] ∧
      (computeSummaryStats scenarioA).accepted +
        (computeSummaryStats scenarioA).declined ≤ scenarioA.length := by
  have hne : scenarioA ≠ [] := by simp [scenarioA]
  exact ⟨hne, claim_counts_le_length scenarioA hne⟩

/-- C9: filtering an already-filtered list by the same term changes
nothing. -/
theorem claim_filter_idem (logs : List LogData) (term : String) :
    filterBySearchTerm (filterBySearchTerm logs term) term =
      filterBySearchTerm logs term := by
  by_cases ht : term = ""
  · simp [filterBySearchTerm, ht]
  · simp only [filterBySearchTerm, if_neg ht]
    rw [List.filter_filter]
    apply List.filter_congr
    intro a ha
    rw [Bool.and_self]

/-- C10: the trend's dates are pairwise distinct, so the date sequence is
strictly increasing, one entry per distinct calendar date. -/
theorem claim_trend_dates_strict (logs : List LogData) :
    ((computeDailyRateTrend logs).map fun e => e.date).Nodup ∧
    ((computeDailyRateTrend logs).map fun e => e.date).Pairwise (· < ·) := by
  refine ⟨computeDailyRateTrend_dates_nodup logs, ?_⟩
  have hle := computeDailyRateTrend_pairwise_le logs
  have hnd := computeDailyRateTrend_dates_nodup logs
  exact (hle.and hnd).imp fun h => lt_of_le_of_ne h.1 h.2

end HappyRobot
